import Mathlib

/-!
# Verification of the PieceOfMind RAG pipeline

Shallow embedding of the two Supabase edge functions of the repository:
the ingestion function (`src/unnamed/part_000`, deployed as the ingest
endpoint) and `src/frontend/supabase/functions/check-interactions/index.ts`.

JavaScript strings are modelled as Lean `String`s (lists of characters);
the string operations used by the code (`toLowerCase`, the two regex
replaces of `canon`, `trim`, `slice`) are defined below, restricted to
ASCII, which is the alphabet the code's regexes `[^a-z0-9]` and `\s`
operate on.  External I/O (openFDA fetch, OpenAI embedding and chat
calls, the Supabase table) is passed in as explicit environment data,
and the observable side effects of a run are returned as a trace.
-/

namespace PieceOfMind

/-! ## JS string primitives -/

/-- A character matched by the character class `[a-z0-9]` of the regex in
`canon`. -/
def lowerAlnum (c : Char) : Bool :=
  (97 ≤ c.toNat && c.toNat ≤ 122) || (48 ≤ c.toNat && c.toNat ≤ 57)

/-- ASCII whitespace, as matched by the regex class `\s` and removed by
`String.prototype.trim` (restricted to ASCII). -/
def jsWhitespace (c : Char) : Bool :=
  c.toNat = 32 || c.toNat = 9 || c.toNat = 10 || c.toNat = 11 ||
    c.toNat = 12 || c.toNat = 13

/-- `String.prototype.toLowerCase`, restricted to ASCII. -/
def jsToLower (c : Char) : Char :=
  if 65 ≤ c.toNat && c.toNat ≤ 90 then Char.ofNat (c.toNat + 32) else c

/-- The space character. -/
def sp : Char := Char.ofNat 32

/-- `.replace(/[^a-z0-9]+/g, ' ')`: every maximal run of characters outside
`[a-z0-9]` becomes a single space.  A run is detected by looking at the next
character: the single space for a run is emitted at the run's last
character. -/
def squash : List Char → List Char
  | [] => []
  | [c] => if lowerAlnum c then [c] else [sp]
  | c :: d :: cs =>
    if lowerAlnum c then c :: squash (d :: cs)
    else if lowerAlnum d then sp :: squash (d :: cs) else squash (d :: cs)

/-- `.replace(/\s+/g, ' ')`: every maximal run of whitespace becomes a single
space. -/
def collapseWs : List Char → List Char
  | [] => []
  | [c] => if jsWhitespace c then [sp] else [c]
  | c :: d :: cs =>
    if jsWhitespace c then
      (if jsWhitespace d then collapseWs (d :: cs) else sp :: collapseWs (d :: cs))
    else c :: collapseWs (d :: cs)

/-- `String.prototype.trim`: drop whitespace from both ends. -/
def jsTrim (l : List Char) : List Char :=
  ((l.dropWhile (fun c => jsWhitespace c)).reverse.dropWhile
      (fun c => jsWhitespace c)).reverse

/-- `jsTrim` on `String`. -/
def jsTrimStr (s : String) : String :=
  ⟨jsTrim s.data⟩

/-- The canonicalization pipeline on character lists:
`toLowerCase → replace(/[^a-z0-9]+/g,' ') → trim → replace(/\s+/g,' ')`. -/
def canonL (l : List Char) : List Char :=
  collapseWs (jsTrim (squash (l.map jsToLower)))

/-- `canon` of both edge functions:
`s.toLowerCase().replace(/[^a-z0-9]+/g,' ').trim().replace(/\s+/g,' ')`. -/
def canon (s : String) : String :=
  ⟨canonL s.data⟩

/-! ### Facts about the canonicalization pipeline -/

theorem jsToLower_of_lowerAlnum {c : Char} (h : lowerAlnum c = true) :
    jsToLower c = c := by
  unfold lowerAlnum at h
  unfold jsToLower
  simp only [Bool.or_eq_true, Bool.and_eq_true, decide_eq_true_eq] at h
  have : ¬(65 ≤ c.toNat ∧ c.toNat ≤ 90) := by omega
  simp only [Bool.and_eq_true, decide_eq_true_eq]
  rw [if_neg this]

theorem jsToLower_sp : jsToLower sp = sp := by decide

theorem lowerAlnum_sp : lowerAlnum sp = false := by decide

theorem jsWhitespace_sp : jsWhitespace sp = true := by decide

theorem not_jsWhitespace_of_lowerAlnum {c : Char} (h : lowerAlnum c = true) :
    jsWhitespace c = false := by
  unfold lowerAlnum at h
  unfold jsWhitespace
  simp only [Bool.or_eq_true, Bool.and_eq_true, decide_eq_true_eq] at h
  simp only [Bool.or_eq_false_iff, decide_eq_false_iff_not]
  omega

/-- Two-step induction principle matching the structure of `squash` and
`collapseWs`. -/
theorem twoStepInduction {motive : List Char → Prop} (h0 : motive [])
    (h1 : ∀ c, motive [c])
    (h2 : ∀ c d cs, motive (d :: cs) → motive (c :: d :: cs)) :
    ∀ l, motive l
  | [] => h0
  | [c] => h1 c
  | c :: d :: cs => h2 c d cs (twoStepInduction h0 h1 h2 (d :: cs))

/-- Every character of `squash l` is alphanumeric or the space. -/
theorem mem_squash {l : List Char} {c : Char} (h : c ∈ squash l) :
    lowerAlnum c = true ∨ c = sp := by
  induction l using twoStepInduction with
  | h0 => simp [squash] at h
  | h1 a =>
    by_cases ha : lowerAlnum a
    · rw [squash, if_pos ha] at h
      simp at h
      subst h
      exact Or.inl ha
    · rw [squash, if_neg ha] at h
      simp at h
      exact Or.inr h
  | h2 a d cs ih =>
    by_cases ha : lowerAlnum a
    · rw [squash, if_pos ha] at h
      rcases List.mem_cons.mp h with h | h
      · subst h; exact Or.inl ha
      · exact ih h
    · rw [squash, if_neg ha] at h
      by_cases hd : lowerAlnum d
      · rw [if_pos hd] at h
        rcases List.mem_cons.mp h with h | h
        · exact Or.inr h
        · exact ih h
      · rw [if_neg hd] at h
        exact ih h

/-- In `squash l` a space is never followed by another space: maximal runs
were collapsed to a single space. -/
theorem chain_squash (l : List Char) :
    List.Chain' (fun a b => a = sp → lowerAlnum b = true) (squash l) := by
  induction l using twoStepInduction with
  | h0 => simp [squash]
  | h1 a =>
    by_cases ha : lowerAlnum a
    · rw [squash, if_pos ha]; simp
    · rw [squash, if_neg ha]; simp
  | h2 a d cs ih =>
    by_cases ha : lowerAlnum a
    · rw [squash, if_pos ha]
      refine List.chain'_cons'.mpr ⟨?_, ih⟩
      intro y hy hcontra
      subst hcontra
      rw [lowerAlnum_sp] at ha
      exact absurd ha (by simp)
    · rw [squash, if_neg ha]
      by_cases hd : lowerAlnum d
      · rw [if_pos hd]
        refine List.chain'_cons'.mpr ⟨?_, ih⟩
        intro y hy _
        have hsq : squash (d :: cs) = d :: squash cs ∨
            squash (d :: cs) = [d] := by
          cases cs with
          | nil => right; rw [squash, if_pos hd]
          | cons e t => left; rw [squash, if_pos hd]
        rcases hsq with hsq | hsq <;> rw [hsq] at hy <;> simp at hy <;>
          rwa [← hy]
      · rw [if_neg hd]
        exact ih

theorem jsTrim_eq_rdropWhile (l : List Char) :
    jsTrim l =
      List.rdropWhile (fun c => jsWhitespace c)
        (l.dropWhile (fun c => jsWhitespace c)) := rfl

theorem mem_jsTrim {l : List Char} {c : Char} (h : c ∈ jsTrim l) : c ∈ l := by
  rw [jsTrim_eq_rdropWhile] at h
  have h1 :=
    (List.rdropWhile_prefix (fun c => jsWhitespace c)
      (l.dropWhile (fun c => jsWhitespace c))).sublist.subset h
  exact (List.dropWhile_suffix (fun c => jsWhitespace c)).sublist.subset h1

theorem jsTrim_head_not_ws {l : List Char} {c : Char} {r : List Char}
    (h : jsTrim l = c :: r) : jsWhitespace c = false := by
  obtain ⟨t, ht⟩ :=
    List.rdropWhile_prefix (fun c => jsWhitespace c)
      (l.dropWhile (fun c => jsWhitespace c))
  rw [jsTrim_eq_rdropWhile] at h
  rw [h, List.cons_append] at ht
  have hne : l.dropWhile (fun c => jsWhitespace c) ≠ [] := by
    rw [← ht]; simp
  have hw := List.head_dropWhile_not (fun c => jsWhitespace c) l hne
  have hc : (l.dropWhile (fun c => jsWhitespace c)).head? = some c := by
    rw [← ht]; rfl
  rw [List.head?_eq_head hne] at hc
  rwa [Option.some.inj hc] at hw

theorem jsTrim_getLast_not_ws {l : List Char} (h : jsTrim l ≠ []) :
    jsWhitespace ((jsTrim l).getLast h) = false := by
  have := List.rdropWhile_last_not (fun c => jsWhitespace c)
    (l.dropWhile (fun c => jsWhitespace c)) h
  simpa using this

theorem jsTrim_eq_self {l : List Char}
    (hhead : ∀ c r, l = c :: r → jsWhitespace c = false)
    (hlast : ∀ h : l ≠ [], jsWhitespace (l.getLast h) = false) :
    jsTrim l = l := by
  rw [jsTrim_eq_rdropWhile]
  have h1 : l.dropWhile (fun c => jsWhitespace c) = l := by
    rw [List.dropWhile_eq_self_iff]
    intro hl
    cases l with
    | nil => simp at hl
    | cons c r => simpa using hhead c r rfl
  rw [h1, List.rdropWhile_eq_self_iff]
  intro hl
  simp [hlast hl]

/-- A non-whitespace head passes through `collapseWs` unchanged. -/
theorem collapseWs_cons_not_ws {c : Char} {cs : List Char}
    (h : jsWhitespace c = false) :
    collapseWs (c :: cs) = c :: collapseWs cs := by
  cases cs with
  | nil => simp only [collapseWs]; rw [if_neg (by simp [h])]
  | cons d t => rw [collapseWs, if_neg (by simp [h])]

theorem collapseWs_ne_nil {l : List Char} (h : l ≠ []) : collapseWs l ≠ [] := by
  induction l using twoStepInduction with
  | h0 => exact absurd rfl h
  | h1 a =>
    by_cases wa : jsWhitespace a
    · rw [collapseWs, if_pos wa]; simp
    · rw [collapseWs, if_neg wa]; simp
  | h2 a d cs ih =>
    by_cases wa : jsWhitespace a
    · rw [collapseWs, if_pos wa]
      by_cases wd : jsWhitespace d
      · rw [if_pos wd]; exact ih (by simp)
      · rw [if_neg wd]; simp
    · rw [collapseWs, if_neg wa]; simp

theorem mem_collapseWs {l : List Char} {c : Char} (h : c ∈ collapseWs l) :
    c ∈ l ∨ c = sp := by
  induction l using twoStepInduction with
  | h0 => simp [collapseWs] at h
  | h1 a =>
    by_cases wa : jsWhitespace a
    · rw [collapseWs, if_pos wa] at h
      simp at h
      exact Or.inr h
    · rw [collapseWs, if_neg wa] at h
      simp at h
      subst h
      exact Or.inl (by simp)
  | h2 a d cs ih =>
    by_cases wa : jsWhitespace a
    · rw [collapseWs, if_pos wa] at h
      by_cases wd : jsWhitespace d
      · rw [if_pos wd] at h
        rcases ih h with h | h
        · exact Or.inl (List.mem_cons_of_mem a h)
        · exact Or.inr h
      · rw [if_neg wd] at h
        rcases List.mem_cons.mp h with h | h
        · exact Or.inr h
        · rcases ih h with h | h
          · exact Or.inl (List.mem_cons_of_mem a h)
          · exact Or.inr h
    · rw [collapseWs, if_neg wa] at h
      rcases List.mem_cons.mp h with h | h
      · subst h; exact Or.inl (by simp)
      · rcases ih h with h | h
        · exact Or.inl (List.mem_cons_of_mem a h)
        · exact Or.inr h

/-- In `collapseWs l` whitespace is never followed by whitespace. -/
theorem chain_collapseWs (l : List Char) :
    List.Chain' (fun a b => jsWhitespace a = true → jsWhitespace b = false)
      (collapseWs l) := by
  induction l using twoStepInduction with
  | h0 => simp [collapseWs]
  | h1 a =>
    by_cases wa : jsWhitespace a
    · rw [collapseWs, if_pos wa]; simp
    · rw [collapseWs, if_neg wa]; simp
  | h2 a d cs ih =>
    by_cases wa : jsWhitespace a
    · rw [collapseWs, if_pos wa]
      by_cases wd : jsWhitespace d
      · rw [if_pos wd]; exact ih
      · rw [if_neg wd]
        refine List.chain'_cons'.mpr ⟨?_, ih⟩
        intro y hy _
        rw [collapseWs_cons_not_ws (by simp [wd])] at hy
        simp at hy
        rw [← hy]
        simpa using wd
    · rw [collapseWs, if_neg wa]
      refine List.chain'_cons'.mpr ⟨?_, ih⟩
      intro y hy hcontra
      rw [hcontra] at wa
      exact absurd rfl wa

/-- On a string whose characters are alphanumeric or isolated single spaces,
`squash` is the identity. -/
theorem squash_eq_self {l : List Char}
    (hmem : ∀ c ∈ l, lowerAlnum c = true ∨ c = sp)
    (hch : List.Chain'
      (fun a b => jsWhitespace a = true → jsWhitespace b = false) l) :
    squash l = l := by
  induction l using twoStepInduction with
  | h0 => rfl
  | h1 a =>
    rcases hmem a (by simp) with ha | ha
    · rw [squash, if_pos ha]
    · subst ha
      rw [squash, if_neg (by simp [lowerAlnum_sp])]
  | h2 a d cs ih =>
    have hch' := (List.chain'_cons.mp hch).2
    have hrel := (List.chain'_cons.mp hch).1
    have hmem' : ∀ c ∈ d :: cs, lowerAlnum c = true ∨ c = sp := by
      intro c hc
      exact hmem c (List.mem_cons_of_mem a hc)
    rcases hmem a (by simp) with ha | ha
    · rw [squash, if_pos ha, ih hmem' hch']
    · subst ha
      have hd : lowerAlnum d = true := by
        have hwd := hrel jsWhitespace_sp
        rcases hmem d (by simp) with h | h
        · exact h
        · subst h
          rw [jsWhitespace_sp] at hwd
          exact absurd hwd (by simp)
      rw [squash, if_neg (by simp [lowerAlnum_sp]), if_pos hd, ih hmem' hch']

/-- On a string whose characters are alphanumeric or isolated single spaces,
`collapseWs` is the identity. -/
theorem collapseWs_eq_self {l : List Char}
    (hmem : ∀ c ∈ l, lowerAlnum c = true ∨ c = sp)
    (hch : List.Chain'
      (fun a b => jsWhitespace a = true → jsWhitespace b = false) l) :
    collapseWs l = l := by
  induction l using twoStepInduction with
  | h0 => rfl
  | h1 a =>
    rcases hmem a (by simp) with ha | ha
    · simp only [collapseWs]
      rw [if_neg (by simp [not_jsWhitespace_of_lowerAlnum ha])]
    · subst ha
      simp only [collapseWs]
      rw [if_pos jsWhitespace_sp]
  | h2 a d cs ih =>
    have hch' := (List.chain'_cons.mp hch).2
    have hrel := (List.chain'_cons.mp hch).1
    have hmem' : ∀ c ∈ d :: cs, lowerAlnum c = true ∨ c = sp := by
      intro c hc
      exact hmem c (List.mem_cons_of_mem a hc)
    rcases hmem a (by simp) with ha | ha
    · rw [collapseWs,
        if_neg (by simp [not_jsWhitespace_of_lowerAlnum ha]), ih hmem' hch']
    · subst ha
      have hwd : jsWhitespace d = false := hrel jsWhitespace_sp
      rw [collapseWs, if_pos jsWhitespace_sp, if_neg (by simp [hwd]),
        ih hmem' hch']

/-- `toLowerCase` is the identity on lower-case alphanumerics and spaces. -/
theorem map_jsToLower_eq_self {l : List Char}
    (hmem : ∀ c ∈ l, lowerAlnum c = true ∨ c = sp) :
    l.map jsToLower = l := by
  induction l with
  | nil => rfl
  | cons a t ih =>
    have ha : jsToLower a = a := by
      rcases hmem a (by simp) with h | h
      · exact jsToLower_of_lowerAlnum h
      · subst h; exact jsToLower_sp
    rw [List.map_cons, ha, ih (fun c hc => hmem c (List.mem_cons_of_mem a hc))]

/-- Every character of `canonL l` is alphanumeric or the space. -/
theorem canonL_mem {l : List Char} {c : Char} (h : c ∈ canonL l) :
    lowerAlnum c = true ∨ c = sp := by
  unfold canonL at h
  rcases mem_collapseWs h with h | h
  · exact mem_squash (mem_jsTrim h)
  · exact Or.inr h

theorem canonL_chain (l : List Char) :
    List.Chain' (fun a b => jsWhitespace a = true → jsWhitespace b = false)
      (canonL l) :=
  chain_collapseWs _

theorem canonL_head_not_ws {l : List Char} {c : Char} {r : List Char}
    (h : canonL l = c :: r) : jsWhitespace c = false := by
  unfold canonL at h
  cases hj : jsTrim (squash (l.map jsToLower)) with
  | nil => rw [hj] at h; simp [collapseWs] at h
  | cons a t =>
    have hna := jsTrim_head_not_ws hj
    rw [hj, collapseWs_cons_not_ws hna] at h
    have : a = c := (List.cons.injEq _ _ _ _ ▸ h).1
    rwa [this] at hna

theorem collapseWs_getLast?_not_ws {l : List Char} {c : Char}
    (hc : (collapseWs l).getLast? = some c)
    (hl : ∀ d, l.getLast? = some d → jsWhitespace d = false) :
    jsWhitespace c = false := by
  induction l using twoStepInduction with
  | h0 => simp [collapseWs] at hc
  | h1 a =>
    have ha := hl a (by simp)
    rw [collapseWs, if_neg (by simp [ha])] at hc
    simp at hc
    rwa [← hc]
  | h2 a d cs ih =>
    have hl' : ∀ e, (d :: cs).getLast? = some e → jsWhitespace e = false := by
      intro e he
      exact hl e (by rwa [List.getLast?_cons_cons])
    by_cases wa : jsWhitespace a
    · rw [collapseWs, if_pos wa] at hc
      by_cases wd : jsWhitespace d
      · rw [if_pos wd] at hc
        exact ih hc hl'
      · rw [if_neg wd] at hc
        obtain ⟨y, ys, hys⟩ :=
          List.exists_cons_of_ne_nil (collapseWs_ne_nil
            (l := d :: cs) (by simp))
        rw [hys, List.getLast?_cons_cons, ← hys] at hc
        exact ih hc hl'
    · rw [collapseWs, if_neg wa] at hc
      obtain ⟨y, ys, hys⟩ :=
        List.exists_cons_of_ne_nil (collapseWs_ne_nil
          (l := d :: cs) (by simp))
      rw [hys, List.getLast?_cons_cons, ← hys] at hc
      exact ih hc hl'

theorem canonL_getLast?_not_ws {l : List Char} {c : Char}
    (h : (canonL l).getLast? = some c) : jsWhitespace c = false := by
  unfold canonL at h
  refine collapseWs_getLast?_not_ws h ?_
  intro d hd
  have hne : jsTrim (squash (l.map jsToLower)) ≠ [] := by
    intro hnil
    rw [hnil] at hd
    simp at hd
  have hlast := jsTrim_getLast_not_ws hne
  rw [List.getLast?_eq_getLast _ hne] at hd
  rwa [Option.some.inj hd] at hlast

/-- The canonicalization pipeline is idempotent on character lists. -/
theorem canonL_idem (l : List Char) : canonL (canonL l) = canonL l := by
  have hmem : ∀ c ∈ canonL l, lowerAlnum c = true ∨ c = sp :=
    fun c hc => canonL_mem hc
  have hch := canonL_chain l
  show canonL (canonL l) = canonL l
  conv_lhs => rw [canonL]
  rw [map_jsToLower_eq_self hmem, squash_eq_self hmem hch,
    jsTrim_eq_self (fun c r hcr => canonL_head_not_ws hcr)
      (fun h => by
        have := canonL_getLast?_not_ws
          (l := l) (List.getLast?_eq_getLast _ h)
        exact this),
    collapseWs_eq_self hmem hch]

/-- **C5.** `canon` is idempotent — for every string `s`,
`canon (canon s) = canon s` — and invariant under case, punctuation and
whitespace variation: `canon "Warfarin!" = canon "  warfarin "`.  Purity,
totality and determinism hold by construction: `canon` is a total Lean
function of its string argument alone. -/
theorem claim_C5_canon_idempotent :
    (∀ s : String, canon (canon s) = canon s) ∧
      canon "Warfarin!" = canon "  warfarin " := by
  constructor
  · intro s
    show (⟨canonL (canon s).data⟩ : String) = canon s
    have hd : (canon s).data = canonL s.data := rfl
    rw [hd, canonL_idem]
    rfl
  · decide

/-! ## Chunker

`chunkText` of `src/unnamed/part_000`:

```
function chunkText(text: string, chunkSize = 1000, overlap = 200) {
  const out: string[] = [];
  let i = 0;
  while (i < text.length) {
    out.push(text.slice(i, i + chunkSize).trim());
    i += chunkSize - overlap;
  }
  return out;
}
```

The loop is modelled first by a fuelled function `chunkLoop` that returns
`none` when the iteration budget is exhausted while the loop guard still
holds — the faithful embedding, able to express non-termination — and
second by the total function `chunksFrom`, defined by well-founded
recursion under the extra guard `0 < step`, and proved to agree with the
loop whenever `overlap < chunkSize`.  The index advance `i += chunkSize -
overlap` is modelled with truncated natural subtraction: for
`overlap ≥ chunkSize` the modelled index never advances, matching the
fact that the JavaScript loop never reaches `i ≥ text.length`. -/

/-- One JS `text.slice(i, i + size).trim()` window. -/
def windowAt (text : List Char) (size i : Nat) : List Char :=
  jsTrim ((text.drop i).take size)

/-- The `while` loop of `chunkText`, with explicit fuel. -/
def chunkLoop (fuel : Nat) (text : List Char) (chunkSize overlap i : Nat) :
    Option (List (List Char)) :=
  match fuel with
  | 0 => if i < text.length then none else some []
  | fuel + 1 =>
    if i < text.length then
      match chunkLoop fuel text chunkSize overlap (i + (chunkSize - overlap)) with
      | none => none
      | some rest => some (windowAt text chunkSize i :: rest)
    else some []

/-- `chunkText`, total form: the same recursion, terminating because the
guard requires a positive advance step. -/
def chunksFrom (text : List Char) (size step i : Nat) : List (List Char) :=
  if _h : 0 < step ∧ i < text.length then
    windowAt text size i :: chunksFrom text size step (i + step)
  else []
  termination_by text.length - i
  decreasing_by omega

/-- `chunkText` on strings: the loop run with enough fuel to cover every
terminating execution (the fuel bound is proved sufficient whenever
`overlap < chunkSize` in `chunkText_eq_chunksFrom`). -/
def chunkText (text : String) (chunkSize overlap : Nat) : List String :=
  ((chunkLoop (text.length + 1) text.data chunkSize overlap 0).getD []).map
    fun l => (⟨l⟩ : String)

/-- With `overlap < chunkSize` the loop terminates within `length + 1`
iterations and computes `chunksFrom`. -/
theorem chunkLoop_eq_chunksFrom {text : List Char} {chunkSize overlap : Nat}
    (h : overlap < chunkSize) :
    ∀ fuel i, text.length - i ≤ fuel * (chunkSize - overlap) →
      chunkLoop fuel text chunkSize overlap i =
        some (chunksFrom text chunkSize (chunkSize - overlap) i) := by
  intro fuel
  induction fuel with
  | zero =>
    intro i hi
    simp only [Nat.zero_mul, Nat.le_zero] at hi
    rw [chunkLoop, chunksFrom]
    rw [if_neg (by omega), dif_neg (by omega)]
  | succ fuel ih =>
    intro i hi
    rw [chunkLoop, chunksFrom]
    by_cases hlt : i < text.length
    · rw [if_pos hlt, dif_pos (by omega)]
      rw [ih (i + (chunkSize - overlap)) (by
        rw [Nat.succ_mul] at hi
        omega)]
    · rw [if_neg hlt, dif_neg (by omega)]

theorem chunkText_eq_chunksFrom {text : String} {chunkSize overlap : Nat}
    (h : overlap < chunkSize) :
    chunkText text chunkSize overlap =
      (chunksFrom text.data chunkSize (chunkSize - overlap) 0).map
        fun l => (⟨l⟩ : String) := by
  unfold chunkText
  rw [chunkLoop_eq_chunksFrom h (text.length + 1) 0 ?_]
  · rfl
  · have h1 : 1 ≤ chunkSize - overlap := by omega
    calc text.length - 0 ≤ (text.length + 1) * 1 := by omega
      _ ≤ (text.length + 1) * (chunkSize - overlap) :=
        Nat.mul_le_mul_left _ h1

theorem jsTrim_length_le (l : List Char) : (jsTrim l).length ≤ l.length := by
  unfold jsTrim
  calc ((l.dropWhile (fun c => jsWhitespace c)).reverse.dropWhile
          (fun c => jsWhitespace c)).reverse.length
      ≤ (l.dropWhile (fun c => jsWhitespace c)).reverse.length := by
        rw [List.length_reverse]
        exact (List.dropWhile_suffix _).sublist.length_le
    _ ≤ l.length := by
        rw [List.length_reverse]
        exact (List.dropWhile_suffix _).sublist.length_le

theorem windowAt_length_le (text : List Char) (size i : Nat) :
    (windowAt text size i).length ≤ size := by
  unfold windowAt
  calc (jsTrim ((text.drop i).take size)).length
      ≤ ((text.drop i).take size).length := jsTrim_length_le _
    _ ≤ size := by rw [List.length_take]; omega

/-- The number of chunks produced from index `i` is
`ceil((length - i) / step)`. -/
theorem chunksFrom_length {text : List Char} {size step : Nat} (hs : 0 < step) :
    ∀ n i, text.length - i ≤ n →
      (chunksFrom text size step i).length =
        (text.length - i + step - 1) / step := by
  intro n
  induction n with
  | zero =>
    intro i hi
    rw [chunksFrom, dif_neg (by omega)]
    simp only [List.length_nil]
    have h0 : text.length - i = 0 := by omega
    rw [h0]
    exact (Nat.div_eq_of_lt (by omega)).symm
  | succ n ih =>
    intro i hi
    by_cases hlt : i < text.length
    · rw [chunksFrom, dif_pos ⟨hs, hlt⟩]
      simp only [List.length_cons]
      rw [ih (i + step) (by omega)]
      have h1 : text.length - (i + step) = text.length - i - step := by omega
      rw [h1]
      rcases le_or_lt (text.length - i) step with hds | hds
      · have e1 : text.length - i - step = 0 := by omega
        rw [e1]
        rw [Nat.div_eq_of_lt (by omega)]
        exact (Nat.div_eq_of_lt_le (by omega) (by omega)).symm
      · have e1 : text.length - i - step + step - 1 = text.length - i - 1 := by
          omega
        have e2 : text.length - i + step - 1 = (text.length - i - 1) + step := by
          omega
        rw [e1, e2, Nat.add_div_right _ hs]
    · rw [chunksFrom, dif_neg (by omega)]
      simp only [List.length_nil]
      have h0 : text.length - i = 0 := by omega
      rw [h0]
      exact (Nat.div_eq_of_lt (by omega)).symm

/-- The `k`-th chunk is the trimmed window starting at `i + k * step`. -/
theorem chunksFrom_getElem {text : List Char} {size step : Nat} (hs : 0 < step) :
    ∀ n i k, text.length - i ≤ n →
      k < (chunksFrom text size step i).length →
      (chunksFrom text size step i)[k]? =
        some (windowAt text size (i + k * step)) := by
  intro n
  induction n with
  | zero =>
    intro i k hi hk
    rw [chunksFrom, dif_neg (by omega)] at hk
    simp at hk
  | succ n ih =>
    intro i k hi hk
    by_cases hlt : i < text.length
    · rw [chunksFrom, dif_pos ⟨hs, hlt⟩] at hk ⊢
      cases k with
      | zero => simp
      | succ k =>
        rw [List.getElem?_cons_succ]
        simp only [List.length_cons] at hk
        rw [ih (i + step) k (by omega) (by omega)]
        have : i + step + k * step = i + (k + 1) * step := by ring
        rw [this]
    · rw [chunksFrom, dif_neg (by omega)] at hk
      simp at hk

/-- Every chunk is at most `size` long. -/
theorem chunksFrom_mem_length {text : List Char} {size step : Nat}
    (hs : 0 < step) :
    ∀ n i, text.length - i ≤ n →
      ∀ c ∈ chunksFrom text size step i, c.length ≤ size := by
  intro n
  induction n with
  | zero =>
    intro i hi c hc
    rw [chunksFrom, dif_neg (by omega)] at hc
    simp at hc
  | succ n ih =>
    intro i hi c hc
    by_cases hlt : i < text.length
    · rw [chunksFrom, dif_pos ⟨hs, hlt⟩] at hc
      rcases List.mem_cons.mp hc with hc | hc
      · subst hc; exact windowAt_length_le _ _ _
      · exact ih (i + step) (by omega) c hc
    · rw [chunksFrom, dif_neg (by omega)] at hc
      simp at hc

/-- **C1 (counterexample).**  The claimed chunk count
`ceil((len(T)-overlap)/(size-overlap))` and the boundary case
"`len(T) ≤ size` yields exactly one chunk" are both false on the code: for
a ten-character text with `size = 10`, `overlap = 2` (so `overlap < size`
and `len(T) ≤ size`), `chunkText` produces two chunks — the loop advances
by `size - overlap = 8` and `8 < 10` triggers a second iteration — while
the claimed formula gives `ceil((10-2)/8) = 1`. -/
theorem claim_C1_counterexample :
    (chunkText "aaaaaaaaaa" 10 2).length = 2 ∧
      "aaaaaaaaaa".length ≤ 10 ∧
      ("aaaaaaaaaa".length - 2 + (10 - 2) - 1) / (10 - 2) = 1 ∧
      chunkText "aaaaaaaaaa" 10 2 = ["aaaaaaaaaa", "aa"] := by
  refine ⟨by decide, by decide, by decide, by decide⟩

/-- **C1 (amended).**  For `overlap < size`: every chunk of
`chunkText T size overlap` has length ≤ `size`; the `k`-th chunk is the
whitespace-trim of the window `T[k*(size-overlap), k*(size-overlap)+size)`;
those windows cover every position of `T` (the position `p` lies in window
number `p / (size-overlap)`); the number of chunks is
`ceil(len(T) / (size-overlap))` — not `ceil((len(T)-overlap)/(size-overlap))`;
empty input yields an empty sequence; and a single chunk is produced
exactly when `0 < len(T) ≤ size - overlap`. -/
theorem claim_C1_amended {text : String} {chunkSize overlap : Nat}
    (h : overlap < chunkSize) :
    (∀ c ∈ chunkText text chunkSize overlap, c.length ≤ chunkSize) ∧
      (chunkText text chunkSize overlap).length =
        (text.length + (chunkSize - overlap) - 1) / (chunkSize - overlap) ∧
      (∀ k, k < (chunkText text chunkSize overlap).length →
        (chunkText text chunkSize overlap)[k]? =
          some ⟨windowAt text.data chunkSize (k * (chunkSize - overlap))⟩) ∧
      (∀ p, p < text.length →
        p / (chunkSize - overlap) < (chunkText text chunkSize overlap).length ∧
        p / (chunkSize - overlap) * (chunkSize - overlap) ≤ p ∧
        p < p / (chunkSize - overlap) * (chunkSize - overlap) + chunkSize) ∧
      (text = "" → chunkText text chunkSize overlap = []) ∧
      (0 < text.length →
        ((chunkText text chunkSize overlap).length = 1 ↔
          text.length ≤ chunkSize - overlap)) := by
  have hs : 0 < chunkSize - overlap := by omega
  have hlen : text.length = text.data.length := rfl
  rw [chunkText_eq_chunksFrom h]
  have hcount :=
    @chunksFrom_length text.data chunkSize (chunkSize - overlap) hs
      text.data.length 0 (by omega)
  refine ⟨?_, ?_, ?_, ?_, ?_, ?_⟩
  · intro c hc
    rcases List.mem_map.mp hc with ⟨l, hl, rfl⟩
    have := @chunksFrom_mem_length text.data chunkSize (chunkSize - overlap) hs
      text.data.length 0 (by omega) l hl
    exact this
  · rw [List.length_map, hcount]
    have e : text.data.length - 0 = text.length := by omega
    rw [e]
  · intro k hk
    rw [List.length_map] at hk
    rw [List.getElem?_map,
      @chunksFrom_getElem text.data chunkSize (chunkSize - overlap) hs
        text.data.length 0 k (by omega) hk]
    simp
  · intro p hp
    rw [hlen] at hp
    refine ⟨?_, Nat.div_mul_le_self _ _, ?_⟩
    · rw [List.length_map, hcount]
      have h1 : p / (chunkSize - overlap) ≤
          (text.data.length - 1) / (chunkSize - overlap) :=
        Nat.div_le_div_right (by omega)
      have h2 : text.data.length - 0 + (chunkSize - overlap) - 1 =
          (text.data.length - 1) + (chunkSize - overlap) := by omega
      rw [h2, Nat.add_div_right _ hs]
      omega
    · have h1 := Nat.div_add_mod' p (chunkSize - overlap)
      have h2 := Nat.mod_lt p hs
      omega
  · intro he
    subst he
    rw [chunksFrom, dif_neg (fun hcon => absurd hcon.2 (by decide))]
    rfl
  · intro hpos
    rw [List.length_map, hcount]
    have h2 : text.data.length - 0 + (chunkSize - overlap) - 1 =
        (text.data.length - 1) + (chunkSize - overlap) := by omega
    rw [h2, Nat.add_div_right _ hs]
    rw [hlen] at hpos ⊢
    constructor
    · intro h1
      have h3 : (text.data.length - 1) / (chunkSize - overlap) = 0 := by omega
      have h4 := (Nat.div_eq_zero_iff hs).mp h3
      omega
    · intro h1
      have h3 : (text.data.length - 1) / (chunkSize - overlap) = 0 :=
        Nat.div_eq_of_lt (by omega)
      omega

/-- Witness for `claim_C1_amended` at `text = "hello world"`,
`size = 4`, `overlap = 1`. -/
theorem claim_C1_amended_witness :
    (∀ c ∈ chunkText "hello world" 4 1, c.length ≤ 4) ∧
      (chunkText "hello world" 4 1).length =
        ("hello world".length + (4 - 1) - 1) / (4 - 1) ∧
      (∀ k, k < (chunkText "hello world" 4 1).length →
        (chunkText "hello world" 4 1)[k]? =
          some ⟨windowAt "hello world".data 4 (k * (4 - 1))⟩) ∧
      (∀ p, p < "hello world".length →
        p / (4 - 1) < (chunkText "hello world" 4 1).length ∧
        p / (4 - 1) * (4 - 1) ≤ p ∧
        p < p / (4 - 1) * (4 - 1) + 4) ∧
      ("hello world" = "" → chunkText "hello world" 4 1 = []) ∧
      (0 < "hello world".length →
        ((chunkText "hello world" 4 1).length = 1 ↔
          "hello world".length ≤ 4 - 1)) :=
  claim_C1_amended (by decide)

/-- **C7 (counterexample).**  The implementation contains no assertion on
`overlap < chunkSize`: called with `overlap = chunkSize = 1` on the
one-character text `"a"`, the loop advances the index by `0` each
iteration and is still running after 100 iterations instead of failing. -/
theorem claim_C7_counterexample :
    chunkLoop 100 (['a']) 1 1 0 = none := by decide

/-- **C7 (amended).**  `chunkText` terminates (within `length + 1` loop
iterations) for every text whenever `overlap < chunkSize`; but the
implementation does **not** assert this invariant: with
`overlap ≥ chunkSize` (here `overlap = chunkSize = 1`) and a non-empty
text the loop never terminates — no iteration budget suffices — rather
than failing fast. -/
theorem claim_C7_amended :
    (∀ (text : List Char) (chunkSize overlap : Nat), overlap < chunkSize →
      ∃ out, chunkLoop (text.length + 1) text chunkSize overlap 0 = some out) ∧
      (∀ fuel, chunkLoop fuel (['a']) 1 1 0 = none) := by
  constructor
  · intro text chunkSize overlap h
    refine ⟨chunksFrom text chunkSize (chunkSize - overlap) 0, ?_⟩
    apply chunkLoop_eq_chunksFrom h
    have h1 : 1 ≤ chunkSize - overlap := by omega
    calc text.length - 0 ≤ (text.length + 1) * 1 := by omega
      _ ≤ (text.length + 1) * (chunkSize - overlap) :=
        Nat.mul_le_mul_left _ h1
  · intro fuel
    induction fuel with
    | zero => rfl
    | succ fuel ih =>
      rw [chunkLoop, if_pos (by decide)]
      have : 0 + (1 - 1) = 0 := rfl
      rw [this, ih]

/-- Witness for `claim_C7_amended`: the terminating branch applied at the
concrete text `"ab"`, `chunkSize = 2`, `overlap = 1`. -/
theorem claim_C7_amended_witness :
    ∃ out, chunkLoop ("ab".data.length + 1) "ab".data 2 1 0 = some out :=
  claim_C7_amended.1 "ab".data 2 1 (by decide)

/-! ## Ingestion pipeline (`src/unnamed/part_000`, serve handler)

The external world of one request — the openFDA response, the embedding
service, the store's insert outcomes — is passed in as an `IngestEnv`, and
the run returns its response, the final store contents, and the trace of
external effects in order of occurrence. -/

/-- The value of a label section field `lab[sec]` when present: a string or
an array of strings. -/
inductive SectionVal
  | str (s : String)
  | arr (ss : List String)
deriving DecidableEq

/-- JS falsiness of `raw = lab[sec]` as tested by `if (!raw) continue;`:
`undefined`/`null` and the empty string are falsy; an array — even an
empty one — is truthy. -/
def rawFalsy : Option SectionVal → Bool
  | none => true
  | some (.str s) => s = ""
  | some (.arr _) => false

/-- `Array.isArray(raw) ? raw.join('\n\n') : String(raw)`. -/
def sectionText : SectionVal → String
  | .str s => s
  | .arr ss => String.intercalate "\n\n" ss

/-- One openFDA label record as read by the handler: `setid`, `spl_id` and
the section fields. -/
structure Label where
  setid : Option String
  spl_id : Option String
  secs : String → Option SectionVal

/-- JS `a || b` on nullable strings: `null`, `undefined` and the empty
string are falsy. -/
def jsOrStr (a b : Option String) : Option String :=
  match a with
  | some s => if s = "" then b else some s
  | none => b

/-- The fixed section list of the handler (line 80). -/
def sections : List String :=
  ["drug_interactions", "warnings", "precautions", "contraindications",
   "adverse_reactions", "clinical_pharmacology", "description",
   "indications_and_usage"]

/-- A row of the `drug_docs` table.  `V` is the embedding-vector type,
opaque to the control flow under verification. -/
structure Row (V : Type) where
  drug_key : String
  label_id : Option String
  /-- `section` in the source (renamed: `section` is a Lean keyword). -/
  sectionName : String
  content : String
  content_len : Nat
  embedding : Option V
  source_url : Option String
deriving DecidableEq

/-- Lines 80–102: stage one row per chunk of every non-empty section of
every label, with `embedding: null`. -/
def buildRows {V : Type} (labels : List Label) (drugKey : String) :
    List (Row V) :=
  labels.flatMap fun lab =>
    let labelId := jsOrStr lab.setid lab.spl_id
    let sourceUrl : Option String :=
      match lab.setid with
      | some s =>
        if s = "" then none
        else some ("https://api.fda.gov/drug/label.json?set_id=" ++
          labelId.getD "")
      | none => none
    sections.flatMap fun sec =>
      let raw := lab.secs sec
      if rawFalsy raw then []
      else
        let text := sectionText (raw.getD (.str ""))
        (chunkText text 1000 200).map fun chunk =>
          { drug_key := drugKey, label_id := labelId, sectionName := sec,
            content := chunk, content_len := chunk.length,
            embedding := none, source_url := sourceUrl }

/-- The openFDA response as seen by `fetchOpenFdaLabels`: a
transport/service failure (`!r.ok`), or an ok JSON body whose `results`
field is absent or holds a list of labels. -/
inductive FetchOutcome
  | transportErr
  | okWith (results : Option (List Label))

/-- `fetchOpenFdaLabels` (lines 50–59): `if (!r.ok) return null;` then
`return j.results || null;` — an empty `results` array is truthy in JS and
is returned as-is, a missing field yields `null`. -/
def fetchOpenFdaLabels : FetchOutcome → Option (List Label)
  | .transportErr => none
  | .okWith results => results

/-- External effects of the ingestion handler. -/
inductive IngEff
  | fetchLabels (drug : String)
  | embedCall (text : String)
  | insertBatch (size : Nat)
deriving DecidableEq

/-- External world of one ingestion request. `insertErr batchIdx = some e`
models a store error on that batch's insert (line 110). -/
structure IngestEnv (V : Type) where
  fetched : FetchOutcome
  embed : String → Except String V
  insertErr : Nat → Option String

/-- Responses of the ingestion handler.  `embedFailed` models the uncaught
rejection of `Promise.all` on a failed `createEmbedding` call (no handler
catches it); `insertError` is the 500 response of line 113. -/
inductive IngestResp
  | drugRequired
  | alreadyExists
  | noLabels
  | insertError (e : String)
  | embedFailed (e : String)
  | ingested (chunks : Nat)
deriving DecidableEq

/-- Consecutive slices `rows.slice(i, i + 6)` of the batch loop, with an
explicit structural fuel (always called with `fuel = length`). -/
def batches6F {α : Type} : Nat → List α → List (List α)
  | _, [] => []
  | 0, l => [l]
  | fuel + 1, a :: t => (a :: t).take 6 :: batches6F fuel ((a :: t).drop 6)

/-- `rows` split into batches of 6. -/
def batches6 {α : Type} (l : List α) : List (List α) :=
  batches6F l.length l

/-- The embed-and-insert loop (lines 104–115): per batch, compute all
embeddings (`Promise.all` — the first rejection aborts the request with an
uncaught exception), attach them, and insert; an insert error stops the
loop with a 500 response, leaving previously inserted batches in place. -/
def insertBatches {V : Type} (env : IngestEnv V) (chunkCount : Nat) :
    List (List (Row V)) → Nat → List (Row V) → List IngEff →
      IngestResp × List (Row V) × List IngEff
  | [], _idx, store, trace => (.ingested chunkCount, store, trace)
  | batch :: rest, idx, store, trace =>
    match batch.mapM (fun r => env.embed r.content) with
    | .error e =>
      (.embedFailed e, store,
        trace ++ batch.map (fun r => IngEff.embedCall r.content))
    | .ok embs =>
      let toInsert := (batch.zip embs).map
        fun p => { p.1 with embedding := some p.2 }
      match env.insertErr idx with
      | some e =>
        (.insertError e, store,
          trace ++ batch.map (fun r => IngEff.embedCall r.content) ++
            [IngEff.insertBatch toInsert.length])
      | none =>
        insertBatches env chunkCount rest (idx + 1) (store ++ toInsert)
          (trace ++ batch.map (fun r => IngEff.embedCall r.content) ++
            [IngEff.insertBatch toInsert.length])

/-- The POST handler of the ingestion function (lines 61–118). -/
def ingestRun {V : Type} (env : IngestEnv V) (store : List (Row V))
    (body_drug : Option String) : IngestResp × List (Row V) × List IngEff :=
  let drug := jsTrimStr (body_drug.getD "")
  if drug = "" then (.drugRequired, store, [])
  else
    let drugKey := canon drug
    if store.any (fun r => r.drug_key = drugKey) then
      (.alreadyExists, store, [])
    else
      match fetchOpenFdaLabels env.fetched with
      | none => (.noLabels, store, [IngEff.fetchLabels drug])
      | some ls =>
        if ls.length = 0 then (.noLabels, store, [IngEff.fetchLabels drug])
        else
          let rows : List (Row V) := buildRows ls drugKey
          insertBatches env rows.length (batches6 rows) 0 store
            [IngEff.fetchLabels drug]

/-- Rows `insertBatches` adds to the store all carry a computed embedding. -/
theorem insertBatches_mem {V : Type} (env : IngestEnv V) (cnt : Nat) :
    ∀ (bs : List (List (Row V))) (idx : Nat) (store : List (Row V))
      (trace : List IngEff) (r : Row V),
      r ∈ (insertBatches env cnt bs idx store trace).2.1 →
      r ∈ store ∨ r.embedding ≠ none := by
  intro bs
  induction bs with
  | nil =>
    intro idx store trace r h
    exact Or.inl h
  | cons b rest ih =>
    intro idx store trace r h
    rw [insertBatches] at h
    cases hm : b.mapM (fun r => env.embed r.content) with
    | error e =>
      rw [hm] at h
      exact Or.inl h
    | ok embs =>
      rw [hm] at h
      cases hins : env.insertErr idx with
      | some e =>
        rw [hins] at h
        exact Or.inl h
      | none =>
        rw [hins] at h
        rcases ih (idx + 1) _ _ r h with h' | h'
        · rcases List.mem_append.mp h' with h'' | h''
          · exact Or.inl h''
          · right
            rcases List.mem_map.mp h'' with ⟨p, hp, rfl⟩
            simp
        · exact Or.inr h'

/-- **C6.** Every chunk row the ingestion handler persists has a non-null
embedding: rows are staged with `embedding: null`, but a batch is inserted
only after every embedding of that batch has been computed and attached,
so a row of the final store is either a pre-existing row or carries
`some` embedding. -/
theorem claim_C6_nonnull_embedding {V : Type} (env : IngestEnv V)
    (store : List (Row V)) (body_drug : Option String) (r : Row V)
    (h : r ∈ (ingestRun env store body_drug).2.1) :
    r ∈ store ∨ r.embedding ≠ none := by
  unfold ingestRun at h
  by_cases h1 : jsTrimStr (body_drug.getD "") = ""
  · rw [if_pos h1] at h
    exact Or.inl h
  · rw [if_neg h1] at h
    by_cases h2 : store.any
        (fun row => row.drug_key = canon (jsTrimStr (body_drug.getD ""))) = true
    · rw [if_pos h2] at h
      exact Or.inl h
    · rw [if_neg h2] at h
      cases hf : fetchOpenFdaLabels env.fetched with
      | none =>
        rw [hf] at h
        exact Or.inl h
      | some ls =>
        rw [hf] at h
        dsimp only at h
        by_cases h3 : ls.length = 0
        · rw [if_pos h3] at h
          exact Or.inl h
        · rw [if_neg h3] at h
          exact insertBatches_mem env _ _ 0 store _ r h

/-- **C4.** With no concurrent writer, when the store already holds at
least one chunk whose `drug_key` is the canonical key of the requested
drug, the handler answers `exists` straight from the guard (lines 70–73):
no label fetch, no chunking, no embedding call, no insert (empty effect
trace), and the store is returned unchanged. -/
theorem claim_C4_idempotency_guard {V : Type} (env : IngestEnv V)
    (store : List (Row V)) (drug : String)
    (hne : jsTrimStr drug ≠ "")
    (hex : store.any
      (fun r => r.drug_key = canon (jsTrimStr drug)) = true) :
    ingestRun env store (some drug) = (.alreadyExists, store, []) := by
  unfold ingestRun
  rw [Option.getD_some, if_neg hne, if_pos hex]

/-- Fixtures for concrete runs of the ingestion handler. -/
def testLabel : Label :=
  { setid := some "S1", spl_id := none,
    secs := fun sec =>
      if sec = "drug_interactions" then
        some (.str "aspirin interacts with warfarin")
      else none }

def testEnvOk : IngestEnv Nat :=
  { fetched := .okWith (some [testLabel]), embed := fun _ => .ok 7,
    insertErr := fun _ => none }

def testEnvTransportErr : IngestEnv Nat :=
  { fetched := .transportErr, embed := fun _ => .ok 7,
    insertErr := fun _ => none }

def testEnvOkEmpty : IngestEnv Nat :=
  { fetched := .okWith (some []), embed := fun _ => .ok 7,
    insertErr := fun _ => none }

def testRow : Row Nat :=
  { drug_key := "aspirin", label_id := some "S1",
    sectionName := "drug_interactions",
    content := "aspirin interacts with warfarin", content_len := 31,
    embedding := some 7,
    source_url := some "https://api.fda.gov/drug/label.json?set_id=S1" }

/-- Witness for `claim_C4_idempotency_guard`: a store already holding an
`"aspirin"` chunk answers a second ingestion of `" Aspirin! "` with
`exists`, unchanged store and no external effects. -/
theorem claim_C4_witness :
    jsTrimStr " Aspirin! " ≠ "" ∧
      ([testRow].any
        (fun r => r.drug_key = canon (jsTrimStr " Aspirin! "))) = true ∧
      ingestRun testEnvOk [testRow] (some " Aspirin! ") =
        (.alreadyExists, [testRow], []) :=
  ⟨by decide, by decide,
    claim_C4_idempotency_guard testEnvOk [testRow] " Aspirin! "
      (by decide) (by decide)⟩

/-- Witness for `claim_C6_nonnull_embedding`: a full successful run over
one label with one section persists exactly `testRow`, whose embedding is
non-null. -/
theorem claim_C6_witness :
    testRow ∈ (ingestRun testEnvOk [] (some "aspirin")).2.1 ∧
      (testRow ∈ ([] : List (Row Nat)) ∨ testRow.embedding ≠ none) :=
  ⟨by decide,
    claim_C6_nonnull_embedding testEnvOk [] (some "aspirin") testRow
      (by decide)⟩

/-- **C2 (counterexample).**  `fetchOpenFdaLabels` returns `null` both for
a non-ok HTTP response and for an ok response with no `results` field, and
the handler's observable outcome on a fresh drug is the identical
`no-labels-found` response for a transport failure and for a genuine empty
result set: the two cases are not signalled distinctly. -/
theorem claim_C2_counterexample :
    fetchOpenFdaLabels .transportErr = fetchOpenFdaLabels (.okWith none) ∧
      ingestRun testEnvTransportErr [] (some "aspirin") =
        ingestRun testEnvOkEmpty [] (some "aspirin") ∧
      ingestRun testEnvTransportErr [] (some "aspirin") =
        (.noLabels, [], [IngEff.fetchLabels "aspirin"]) :=
  ⟨rfl, by decide, by decide⟩

/-- **C2 (amended).**  `fetchOpenFdaLabels` maps a transport/service error
(non-ok response) to `null`, the same value an ok response without
`results` yields; and for every environment, store and request body the
ingestion handler's observable outcome — response, store and effect
trace — is identical between a transport failure and an empty result
set (`[]`): a retryable failure is not distinguishable from a terminal
empty result. -/
theorem claim_C2_amended {V : Type} (embed : String → Except String V)
    (ins : Nat → Option String) (store : List (Row V))
    (body : Option String) :
    fetchOpenFdaLabels .transportErr = none ∧
      ingestRun ⟨.transportErr, embed, ins⟩ store body =
        ingestRun ⟨.okWith (some []), embed, ins⟩ store body := by
  refine ⟨rfl, ?_⟩
  unfold ingestRun
  dsimp only
  by_cases h1 : jsTrimStr (body.getD "") = ""
  · simp only [if_pos h1]
  · simp only [if_neg h1]
    by_cases h2 : store.any
        (fun r => r.drug_key = canon (jsTrimStr (body.getD ""))) = true
    · simp only [if_pos h2]
    · simp only [if_neg h2]
      rfl

/-! ## Interaction check
(`src/frontend/supabase/functions/check-interactions/index.ts`)

External calls — the ingest trigger, embedding, the `search_drug_docs`
RPC, the chat completion and `JSON.parse` — are fields of a `CheckEnv`;
the run returns the response's `interactions` list plus the effect
trace. -/

/-- An evidence snippet (line 81): section name, content truncated to 600
characters, source url. -/
structure Snippet where
  sectionName : String
  content : String
  source_url : Option String
deriving DecidableEq

/-- A row as returned by the `search_drug_docs` RPC. -/
structure EvRow where
  sectionName : String
  content : Option String
  source_url : Option String
deriving DecidableEq

/-- The parsed JSON object shape used by the handler; an absent field is
`none` (JS `undefined`).  JSON numbers are modelled as rationals. -/
structure ParsedJson where
  interaction : Option String
  severity : Option String
  explanation : Option String
  evidence : Option (List Snippet)
  confidence : Option Rat
deriving DecidableEq

/-- One element of the `results` array (line 143):
`{ drugs: [a,b], ...parsed, raw_model: modelResp,
evidence_count: snippets.length }`. -/
structure PairResult where
  drugs : List String
  interaction : Option String
  severity : Option String
  explanation : Option String
  evidence : Option (List Snippet)
  confidence : Option Rat
  raw_model : String
  evidence_count : Nat
deriving DecidableEq

def lbrace : Char := Char.ofNat 123

def rbrace : Char := Char.ofNat 125

/-- `String.prototype.indexOf` for a single character: index or `-1`. -/
def jsIndexOf (l : List Char) (c : Char) : Int :=
  match l.indexOf? c with
  | some i => (i : Int)
  | none => -1

/-- `String.prototype.lastIndexOf` for a single character. -/
def jsLastIndexOf (l : List Char) (c : Char) : Int :=
  match l.reverse.indexOf? c with
  | some i => (l.length : Int) - 1 - (i : Int)
  | none => -1

/-- Lines 131–133: the substring from the first brace to the last brace
when `start >= 0 && end > start`, otherwise the whole response. -/
def extractJson (s : String) : String :=
  let start := jsIndexOf s.data lbrace
  let stop := jsLastIndexOf s.data rbrace
  if 0 ≤ start ∧ start < stop then
    ⟨(s.data.drop start.toNat).take (stop.toNat + 1 - start.toNat)⟩
  else s

/-- The canonical fallback object of lines 137 and 140. -/
def fallbackParsed (why : String) (snippets : List Snippet) : ParsedJson :=
  { interaction := some "unknown", severity := some "unknown",
    explanation := some why, evidence := some (snippets.take 2),
    confidence := some 0 }

/-- The parse-with-fallback of lines 127–141, parameterized by the
external `JSON.parse` (`jsonParse s = none` models a parse exception).
Total by construction: it never raises. -/
def parseModelResp (jsonParse : String → Option ParsedJson)
    (modelResp : String) (snippets : List Snippet) : ParsedJson :=
  if modelResp = "" then fallbackParsed "no model response" snippets
  else
    match jsonParse (extractJson modelResp) with
    | some p => p
    | none => fallbackParsed "model parse failed" snippets

/-- Line 143: the record pushed onto `results`. -/
def mkPairResult (a b : String) (parsed : ParsedJson) (modelResp : String)
    (snippets : List Snippet) : PairResult :=
  { drugs := [a, b], interaction := parsed.interaction,
    severity := parsed.severity, explanation := parsed.explanation,
    evidence := parsed.evidence, confidence := parsed.confidence,
    raw_model := modelResp, evidence_count := snippets.length }

/-- The comparator key of lines 147–150:
`r.interaction === 'yes' ? 3 : r.interaction === 'unknown' ? 2 : 1`. -/
def rank (r : PairResult) : Nat :=
  if r.interaction = some "yes" then 3
  else if r.interaction = some "unknown" then 2 else 1

/-- Stable insertion for a descending-by-rank list: the inserted element
goes after every strictly higher-ranked element and before the first
element of rank ≤ its own. -/
def insertByRank (r : PairResult) : List PairResult → List PairResult
  | [] => [r]
  | x :: xs =>
    if rank x ≤ rank r then r :: x :: xs else x :: insertByRank r xs

/-- `results.sort((r1, r2) => rank(r2) - rank(r1))`: ECMA-262 requires
`Array.prototype.sort` to be stable, and for the total preorder induced by
`rank` the stable descending sort is unique, so it is modelled by stable
insertion sort. -/
def sortResults : List PairResult → List PairResult
  | [] => []
  | r :: rs => insertByRank r (sortResults rs)

/-- Line 76. -/
def queryText (a b : String) : String :=
  "Drug interaction: " ++ a ++ " WITH " ++ b ++
    ". Search for label warnings, interactions, contraindications, adverse reactions."

/-- The system prompt of lines 84–92. -/
def systemPrompt : String :=
  "You are an evidence-based clinical assistant. Use ONLY the provided evidence snippets (excerpts from FDA drug labels). Reply ONLY with valid JSON in this exact shape:\n\x7b\n \"interaction\": \"yes\"|\"no\"|\"unknown\",\n \"severity\": \"high\"|\"medium\"|\"low\"|\"unknown\",\n \"explanation\": \"<1-2 sentence clinician-friendly summary>\",\n \"evidence\": [\x7b\"section\":\"...\",\"excerpt\":\"...\",\"source_url\":\"...\"\x7d],\n \"confidence\": 0.0\n\x7d\nIf evidence is unclear, return \"unknown\" and low confidence."

/-- The user prompt of lines 94–99. -/
def userContent (a b : String) (snippets : List Snippet) : String :=
  (snippets.enum.foldl
    (fun acc p =>
      acc ++ "SNIPPET " ++ toString (p.1 + 1) ++ " [" ++ p.2.sectionName ++
        "]\n" ++ p.2.content ++ "\nSource: " ++
        (match p.2.source_url with
         | some s => if s = "" then "openFDA label" else s
         | none => "openFDA label") ++ "\n\n")
    ("Question: Is there a drug-drug interaction between \"" ++ a ++
      "\" and \"" ++ b ++ "\"?\nEvidence snippets:\n\n")) ++
    "\nAnswer in JSON only."

/-- External effects of the check handler. -/
inductive ChkEff
  | ensureIngested (drug : String)
  | embedCall (text : String)
  | searchCall (topK : Nat)
  | chatCall
deriving DecidableEq

/-- External world of one check request.  `ensure` models
`ensureDrugIngested` (its boolean result is ignored by the handler);
`search` models the RPC with its internal catch-to-`[]`; `chatContent` is
the chat completion's message content, `none` when the call fails or the
response is not ok (the handler then keeps `modelResp = ''`). -/
structure CheckEnv (V : Type) where
  ensure : String → Bool
  embed : String → Except String V
  search : V → Nat → List EvRow
  chatContent : String → String → Option String
  jsonParse : String → Option ParsedJson

/-- Lines 75–144, one pair: embed the query (a failure logs and skips the
pair — `continue`), search, trim snippets, call the chat model, parse with
fallback, build the record.  `none` means the pair was skipped. -/
def processPair {V : Type} (env : CheckEnv V) (a b : String) :
    Option PairResult × List ChkEff :=
  match env.embed (queryText a b) with
  | .error _ => (none, [ChkEff.embedCall (queryText a b)])
  | .ok v =>
    let evidenceRows := env.search v 6
    let snippets := evidenceRows.map fun r =>
      { sectionName := r.sectionName,
        content := (r.content.getD "").take 600,
        source_url := r.source_url : Snippet }
    let modelResp :=
      (env.chatContent systemPrompt (userContent a b snippets)).getD ""
    let parsed := parseModelResp env.jsonParse modelResp snippets
    (some (mkPairResult a b parsed modelResp snippets),
      [ChkEff.embedCall (queryText a b), ChkEff.searchCall 6,
        ChkEff.chatCall])

/-- Lines 66–71: all ordered pairs `(i, j)` with `i < j`, in enumeration
order. -/
def pairsOf : List String → List (String × String)
  | [] => []
  | d :: ds => ds.map (fun e => (d, e)) ++ pairsOf ds

/-- The results pushed by the pair loop, before sorting. -/
def rawResults {V : Type} (env : CheckEnv V) (body_drugs : List String) :
    List PairResult :=
  (pairsOf (body_drugs.take 12)).filterMap fun p =>
    (processPair env p.1 p.2).1

/-- The POST handler (lines 54–153): cap the list at 12, return an empty
`interactions` list for fewer than two drugs, otherwise ensure ingestion
per drug, process every pair sequentially and sort by descending rank. -/
def checkRun {V : Type} (env : CheckEnv V) (body_drugs : List String) :
    List PairResult × List ChkEff :=
  let drugs := body_drugs.take 12
  if drugs.length < 2 then ([], [])
  else
    (sortResults (rawResults env body_drugs),
      drugs.map ChkEff.ensureIngested ++
        (pairsOf drugs).flatMap fun p => (processPair env p.1 p.2).2)

theorem mem_insertByRank {r y : PairResult} :
    ∀ {l : List PairResult}, y ∈ insertByRank r l → y = r ∨ y ∈ l := by
  intro l
  induction l with
  | nil =>
    intro h
    simp [insertByRank] at h
    exact Or.inl h
  | cons x xs ih =>
    intro h
    rw [insertByRank] at h
    by_cases hx : rank x ≤ rank r
    · rw [if_pos hx] at h
      rcases List.mem_cons.mp h with h | h
      · exact Or.inl h
      · exact Or.inr h
    · rw [if_neg hx] at h
      rcases List.mem_cons.mp h with h | h
      · subst h
        exact Or.inr (by simp)
      · rcases ih h with h | h
        · exact Or.inl h
        · exact Or.inr (List.mem_cons_of_mem x h)

theorem insertByRank_pairwise {r : PairResult} {l : List PairResult}
    (h : List.Pairwise (fun a b => rank b ≤ rank a) l) :
    List.Pairwise (fun a b => rank b ≤ rank a) (insertByRank r l) := by
  induction l with
  | nil => simp [insertByRank]
  | cons x xs ih =>
    rw [insertByRank]
    by_cases hx : rank x ≤ rank r
    · rw [if_pos hx]
      refine List.Pairwise.cons ?_ h
      intro y hy
      rcases List.mem_cons.mp hy with h' | h'
      · rw [h']
        exact hx
      · exact le_trans (List.rel_of_pairwise_cons h h') hx
    · rw [if_neg hx]
      refine List.Pairwise.cons ?_ (ih h.of_cons)
      intro y hy
      rcases mem_insertByRank hy with h' | h'
      · rw [h']
        omega
      · exact List.rel_of_pairwise_cons h h'

/-- The sorted list is descending in rank. -/
theorem sortResults_pairwise (l : List PairResult) :
    List.Pairwise (fun a b => rank b ≤ rank a) (sortResults l) := by
  induction l with
  | nil => simp [sortResults]
  | cons r rs ih => exact insertByRank_pairwise ih

theorem insertByRank_filter_eq {r : PairResult} {k : Nat}
    (hk : rank r = k) :
    ∀ l : List PairResult,
      (insertByRank r l).filter (fun x => rank x == k) =
        r :: l.filter (fun x => rank x == k) := by
  intro l
  induction l with
  | nil => rw [insertByRank, List.filter_cons, if_pos (by simp [hk])]
  | cons x xs ih =>
    rw [insertByRank]
    by_cases hx : rank x ≤ rank r
    · rw [if_pos hx, List.filter_cons, if_pos (by simp [hk])]
    · rw [if_neg hx, List.filter_cons]
      by_cases hxk : rank x = k
      · exact absurd (by omega : rank x ≤ rank r) hx
      · rw [if_neg (by simp [hxk]), ih, List.filter_cons,
          if_neg (by simp [hxk])]

theorem insertByRank_filter_ne {r : PairResult} {k : Nat}
    (hk : rank r ≠ k) :
    ∀ l : List PairResult,
      (insertByRank r l).filter (fun x => rank x == k) =
        l.filter (fun x => rank x == k) := by
  intro l
  induction l with
  | nil => rw [insertByRank, List.filter_cons, if_neg (by simp [hk])]
  | cons x xs ih =>
    rw [insertByRank]
    by_cases hx : rank x ≤ rank r
    · rw [if_pos hx, List.filter_cons, if_neg (by simp [hk])]
    · rw [if_neg hx, List.filter_cons, ih, List.filter_cons]

/-- Stability of the modelled sort: for each rank value, the sorted list
restricted to that rank is exactly the unsorted list so restricted — ties
keep their enumeration order, and no other key takes part. -/
theorem sortResults_filter (k : Nat) (l : List PairResult) :
    (sortResults l).filter (fun x => rank x == k) =
      l.filter (fun x => rank x == k) := by
  induction l with
  | nil => rfl
  | cons r rs ih =>
    rw [sortResults]
    by_cases hk : rank r = k
    · rw [insertByRank_filter_eq hk, ih, List.filter_cons,
        if_pos (by simp [hk])]
    · rw [insertByRank_filter_ne hk, ih, List.filter_cons,
        if_neg (by simp [hk])]

theorem pairsOf_short {l : List String} (h : l.length < 2) :
    pairsOf l = [] := by
  match l, h with
  | [], _ => rfl
  | [x], _ => rfl

/-- **C3.** Whenever the generative call failed outright or returned empty
content (`modelResp = ""`), or the first-brace-to-last-brace substring of
its text fails to parse as JSON (`jsonParse … = none`, e.g. for
`"not json"`), the reasoning step yields the canonical fallback:
`interaction = unknown`, `severity = unknown`, `confidence = 0.0`, and
`evidence` equal to the first two retrieved snippets.  It never raises:
`parseModelResp` is a total function with no external dependency. -/
theorem claim_C3_reasoner_fallback (jsonParse : String → Option ParsedJson)
    (modelResp : String) (snippets : List Snippet)
    (h : modelResp = "" ∨ jsonParse (extractJson modelResp) = none) :
    (parseModelResp jsonParse modelResp snippets).interaction =
        some "unknown" ∧
      (parseModelResp jsonParse modelResp snippets).severity =
        some "unknown" ∧
      (parseModelResp jsonParse modelResp snippets).confidence = some 0 ∧
      (parseModelResp jsonParse modelResp snippets).evidence =
        some (snippets.take 2) := by
  unfold parseModelResp
  by_cases he : modelResp = ""
  · rw [if_pos he]
    exact ⟨rfl, rfl, rfl, rfl⟩
  · rw [if_neg he]
    rcases h with h | h
    · exact absurd h he
    · rw [h]
      exact ⟨rfl, rfl, rfl, rfl⟩

/-- A minimal model of `JSON.parse` on which every input raises. -/
def jpNone : String → Option ParsedJson := fun _ => none

def snips3 : List Snippet :=
  [{ sectionName := "warnings", content := "w1", source_url := none },
   { sectionName := "drug_interactions", content := "w2",
     source_url := some "u" },
   { sectionName := "description", content := "w3", source_url := none }]

/-- Witness for `claim_C3_reasoner_fallback` at the generative response
`"not json"` (whose brace extraction fails to parse) and three retrieved
snippets. -/
theorem claim_C3_witness :
    ("not json" = "" ∨ jpNone (extractJson "not json") = none) ∧
      ((parseModelResp jpNone "not json" snips3).interaction =
          some "unknown" ∧
        (parseModelResp jpNone "not json" snips3).severity =
          some "unknown" ∧
        (parseModelResp jpNone "not json" snips3).confidence = some 0 ∧
        (parseModelResp jpNone "not json" snips3).evidence =
          some (snips3.take 2)) :=
  ⟨Or.inr rfl,
    claim_C3_reasoner_fallback jpNone "not json" snips3 (Or.inr rfl)⟩

/-- **C9.** With fewer than two drug names the handler returns an empty
interactions list and performs no external effect at all: no ingestion
trigger, no embedding, no search, no generation. -/
theorem claim_C9_single_drug {V : Type} (env : CheckEnv V)
    (body_drugs : List String) (h : body_drugs.length < 2) :
    checkRun env body_drugs = ([], []) := by
  unfold checkRun
  dsimp only
  rw [if_pos (by rw [List.length_take]; omega)]

/-- A fixture environment for concrete check runs. -/
def testChkEnv : CheckEnv Nat :=
  { ensure := fun _ => true, embed := fun _ => .ok 3,
    search := fun _ _ => [],
    chatContent := fun _ _ => none,
    jsonParse := fun _ => none }

/-- Witness for `claim_C9_single_drug` at the single-drug body
`["X"]`. -/
theorem claim_C9_witness :
    (["X"].length < 2) ∧ checkRun testChkEnv ["X"] = ([], []) :=
  ⟨by decide, claim_C9_single_drug testChkEnv ["X"] (by decide)⟩

/-- **C8.** The final result list of the check handler is sorted
descending by the single-keyed rank `yes ↦ 3, unknown ↦ 2, anything
else ↦ 1`; severity takes no part, and for every rank value the results of
that rank appear exactly in their pair-enumeration order (the sort is
stable and single-keyed): filtering the sorted output by any rank value
gives the same list as filtering the unsorted pair-loop results. -/
theorem claim_C8_sorted_stable {V : Type} (env : CheckEnv V)
    (body_drugs : List String) :
    List.Pairwise (fun r1 r2 => rank r2 ≤ rank r1)
        (checkRun env body_drugs).1 ∧
      (∀ k : Nat, (checkRun env body_drugs).1.filter
          (fun r => rank r == k) =
        (rawResults env body_drugs).filter (fun r => rank r == k)) ∧
      (∀ r : PairResult, r.interaction = some "yes" → rank r = 3) ∧
      (∀ r : PairResult, r.interaction = some "unknown" → rank r = 2) ∧
      (∀ r : PairResult, r.interaction ≠ some "yes" →
        r.interaction ≠ some "unknown" → rank r = 1) := by
  refine ⟨?_, ?_, ?_, ?_, ?_⟩
  · unfold checkRun
    dsimp only
    by_cases h : (body_drugs.take 12).length < 2
    · rw [if_pos h]
      simp
    · rw [if_neg h]
      exact sortResults_pairwise _
  · intro k
    unfold checkRun
    dsimp only
    by_cases h : (body_drugs.take 12).length < 2
    · rw [if_pos h]
      rw [rawResults, pairsOf_short h]
      rfl
    · rw [if_neg h]
      exact sortResults_filter k _
  · intro r hy
    unfold rank
    rw [if_pos hy]
  · intro r hu
    unfold rank
    rw [if_neg ?_, if_pos hu]
    rw [hu]
    simp
  · intro r hy hu
    unfold rank
    rw [if_neg hy, if_neg hu]

/-- **C10.** When the response is non-empty and its brace-extracted
substring parses, the parsed object is merged into the pair record
verbatim, with no schema validation whatsoever: enum-violating
`interaction`/`severity` strings, a `confidence` outside `[0,1]`, and
missing fields all pass through to the caller unchanged; and a result
whose `interaction` is neither `"yes"` nor `"unknown"` gets the lowest
rank `1`, the minimum of the sort key's range. -/
theorem claim_C10_verbatim_merge (jsonParse : String → Option ParsedJson)
    (modelResp : String) (snippets : List Snippet) (a b : String)
    (p : ParsedJson) (h1 : modelResp ≠ "")
    (h2 : jsonParse (extractJson modelResp) = some p) :
    parseModelResp jsonParse modelResp snippets = p ∧
      mkPairResult a b (parseModelResp jsonParse modelResp snippets)
          modelResp snippets =
        { drugs := [a, b], interaction := p.interaction,
          severity := p.severity, explanation := p.explanation,
          evidence := p.evidence, confidence := p.confidence,
          raw_model := modelResp, evidence_count := snippets.length } ∧
      (p.interaction ≠ some "yes" → p.interaction ≠ some "unknown" →
        rank (mkPairResult a b p modelResp snippets) = 1) ∧
      (∀ r : PairResult, 1 ≤ rank r) := by
  have hp : parseModelResp jsonParse modelResp snippets = p := by
    unfold parseModelResp
    rw [if_neg h1, h2]
  refine ⟨hp, by rw [hp]; rfl, ?_, ?_⟩
  · intro hy hu
    unfold rank mkPairResult
    dsimp only
    rw [if_neg hy, if_neg hu]
  · intro r
    unfold rank
    by_cases hys : r.interaction = some "yes"
    · rw [if_pos hys]
      omega
    · rw [if_neg hys]
      by_cases hus : r.interaction = some "unknown"
      · rw [if_pos hus]
        omega
      · rw [if_neg hus]

/-- A parsed object violating every schema constraint: out-of-enum
`interaction` and `severity`, `confidence` outside `[0,1]`, missing
`explanation` and `evidence`. -/
def pBad : ParsedJson :=
  { interaction := some "maybe", severity := some "catastrophic",
    explanation := none, evidence := none, confidence := some 5 }

/-- A minimal model of `JSON.parse` accepting exactly the text
`"weird"` (which contains no braces, so brace extraction returns it
whole) with the schema-violating object `pBad`. -/
def jpBad : String → Option ParsedJson :=
  fun s => if s = "weird" then some pBad else none

/-- Witness for `claim_C10_verbatim_merge`: the schema-violating `pBad`
parsed from response `"weird"` reaches the result record unchanged and is
ranked lowest. -/
theorem claim_C10_witness :
    (("weird" : String) ≠ "" ∧ jpBad (extractJson "weird") = some pBad) ∧
      (parseModelResp jpBad "weird" [] = pBad ∧
        mkPairResult "A" "B" (parseModelResp jpBad "weird" ([] : List Snippet)) "weird" [] =
          { drugs := ["A", "B"], interaction := pBad.interaction,
            severity := pBad.severity, explanation := pBad.explanation,
            evidence := pBad.evidence, confidence := pBad.confidence,
            raw_model := "weird", evidence_count := List.length ([] : List Snippet) } ∧
        (pBad.interaction ≠ some "yes" → pBad.interaction ≠ some "unknown" →
          rank (mkPairResult "A" "B" pBad "weird" []) = 1) ∧
        (∀ r : PairResult, 1 ≤ rank r)) :=
  ⟨⟨by decide, by decide⟩,
    claim_C10_verbatim_merge jpBad "weird" [] "A" "B" pBad (by decide)
      (by decide)⟩
